import Mathlib

/-!
Verification of the gossip routing core: a shallow embedding of the gossip
graph (`crates/nostr-sdk/src/gossip/graph.rs`) and the relay options
vocabulary (`crates/nostr-relay-pool/src/relay/options.rs`), with theorems
settling the specification claims about ingestion, staleness detection,
filter decomposition and the options builders.

Machine types are modelled as `Nat` (timestamps, durations in seconds),
relay URLs as `String`, public keys as `Nat` values with a 64-digit hex
encoding.  Rust `HashMap`/`HashSet`/`BTreeSet` collections are modelled as
association lists (when key dedup order matters) or `Finset`s (when only
set contents are observable).  The wall clock `Timestamp::now()` is passed
as an explicit `now : Nat` argument to every operation that reads it.
-/

namespace Nostr

/-- Tri-valued annotation on a NIP-65 relay entry (`RelayMetadata` in the
`nostr` crate): `read` or `write`; absence (the `Option` around it) means
both. -/
inductive RelayMetadata where
  | read : RelayMetadata
  | write : RelayMetadata
deriving DecidableEq

/-- Public keys are 32-byte identifiers; modelled as their numeric value. -/
abbrev PublicKey := Nat

/-- Numeric value of one hex digit, accepting both cases; `none` on any
other character. -/
def hexVal (c : Char) : Option Nat :=
  if ('0') ≤ c ∧ c ≤ ('9') then some (c.toNat - ('0').toNat)
  else if ('a') ≤ c ∧ c ≤ ('f') then some (c.toNat - ('a').toNat + 10)
  else if ('A') ≤ c ∧ c ≤ ('F') then some (c.toNat - ('A').toNat + 10)
  else none

/-- Modelled from the spec: `PublicKey::from_hex` of the external `nostr`
crate (not under `src/`): a public key parses from exactly 64 hex
characters; any other string is rejected. -/
def PublicKey.from_hex (s : String) : Option PublicKey :=
  if s.length = 64 then
    s.data.foldl (fun acc c => acc.bind fun a => (hexVal c).map fun d => 16 * a + d)
      (some 0)
  else none

/-- Big-endian hex digits of `n`, padded to the given length. -/
def hexChars (n : Nat) : Nat → List Char
  | 0 => []
  | len + 1 => hexChars (n / 16) len ++ [Nat.digitChar (n % 16)]

/-- Modelled from the spec: the `Display`/`to_string` hex encoding of a
public key in the external `nostr` crate (not under `src/`): 64 lowercase
hex digits. -/
def PublicKey.toHex (n : PublicKey) : String :=
  String.mk (hexChars n 64)

/-- Modelled from the spec: `MAX_RELAYS_LIST` of the missing
`gossip/constant.rs` — the per-record cap on stored relay entries
(spec: "e.g., 5–10"). -/
def MAX_RELAYS_LIST : Nat := 5

/-- Modelled from the spec: `CHECK_OUTDATED_INTERVAL` of the missing
`gossip/constant.rs` — minimum gap between outdated-checks per key
(spec: "e.g., 1 h"), in seconds. -/
def CHECK_OUTDATED_INTERVAL : Nat := 3600

/-- Modelled from the spec: `PUBKEY_METADATA_OUTDATED_AFTER` of the missing
`gossip/constant.rs` — staleness horizon (spec: "e.g., 1 h"), in seconds. -/
def PUBKEY_METADATA_OUTDATED_AFTER : Nat := 3600

/-- `RelayList<T>` of `gossip/graph.rs`: a collection paired with the
`created_at` of the signed record that produced it and the wall-clock
instant of the last refresh. -/
structure RelayList (T : Type) where
  collection : T
  event_created_at : Nat
  last_update : Nat
deriving DecidableEq

/-- The NIP-65 collection: `HashMap<RelayUrl, Option<RelayMetadata>>`,
modelled as a key-deduplicated association list. -/
abbrev Nip65Coll := List (String × Option RelayMetadata)

/-- The NIP-17 collection: `HashSet<RelayUrl>`. -/
abbrev Nip17Coll := Finset String

/-- `RelayLists` of `gossip/graph.rs`: the per-public-key record. -/
structure RelayLists where
  nip17 : RelayList Nip17Coll
  nip65 : RelayList Nip65Coll
  last_check : Nat
deriving DecidableEq

/-- `RelayLists::default()`: empty collections, all timestamps at epoch 0. -/
def emptyLists : RelayLists :=
  { nip17 := ⟨∅, 0, 0⟩, nip65 := ⟨[], 0, 0⟩, last_check := 0 }

/-- The graph state `PublicKeyMap = HashMap<PublicKey, RelayLists>`. -/
abbrev GraphState := PublicKey → Option RelayLists

/-- The empty graph (`GossipGraph::new`). -/
def emptyGraph : GraphState := fun _ => none

/-- The kind code of `Kind::RelayList` (NIP-65). -/
def KindRelayList : Nat := 10002

/-- The kind code of `Kind::InboxRelays` (NIP-17). -/
def KindInboxRelays : Nat := 10050

/-- Modelled from the spec: an ingested event of the external event format
(the `Event` type of the `nostr` crate is not under `src/`).  Per the spec,
the graph consumes ready iterators of decoded relay entries, so the event
carries the results of `nip65::extract_relay_list` and
`nip17::extract_relay_list` directly. -/
structure Event where
  pubkey : PublicKey
  created_at : Nat
  kind : Nat
  relays65 : List (String × Option RelayMetadata)
  relays17 : List String
deriving DecidableEq

/-- Insert one key/value pair into an association list with `HashMap`
semantics: replace the value when the key is present, append otherwise. -/
def insertKV (m : Nip65Coll) (kv : String × Option RelayMetadata) : Nip65Coll :=
  if m.any (fun p => decide (p.1 = kv.1)) then
    m.map (fun p => if p.1 = kv.1 then kv else p)
  else m ++ [kv]

/-- `collect()` of an iterator of pairs into a `HashMap`: last pair wins on
duplicate keys. -/
def collectMap (l : List (String × Option RelayMetadata)) : Nip65Coll :=
  l.foldl insertKV []

/-- The NIP-65 collection installed for an event:
`nip65::extract_relay_list(&event).take(MAX_RELAYS_LIST).collect()`. -/
def coll65 (e : Event) : Nip65Coll :=
  collectMap (e.relays65.take MAX_RELAYS_LIST)

/-- The NIP-17 collection installed for an event:
`nip17::extract_relay_list(&event).take(MAX_RELAYS_LIST).collect()`. -/
def coll17 (e : Event) : Nip17Coll :=
  (e.relays17.take MAX_RELAYS_LIST).toFinset

/-- The fresh NIP-65 `RelayList` written by `update` for a winning event:
collection from the event, versioned by the event's `created_at`,
refreshed at `now`. -/
def mk65 (now : Nat) (e : Event) : RelayList Nip65Coll :=
  ⟨coll65 e, e.created_at, now⟩

/-- The fresh NIP-17 `RelayList` written by `update` for a winning event. -/
def mk17 (now : Nat) (e : Event) : RelayList Nip17Coll :=
  ⟨coll17 e, e.created_at, now⟩

/-- The guarded replacement step shared by both list kinds: replace the
stored list by `mk e` when the incoming `created_at` is at least the stored
`event_created_at` (the `>=` monotonicity test of `update`), else keep. -/
def genStep {σ : Type} (ts : σ → Nat) (mk : Event → σ) (s : σ) (e : Event) : σ :=
  if ts s ≤ e.created_at then mk e else s

/-- The `and_modify` update of the NIP-65 list for a `RelayList` event. -/
def step65 (now : Nat) : RelayList Nip65Coll → Event → RelayList Nip65Coll :=
  genStep (fun x => x.event_created_at) (mk65 now)

/-- The `and_modify` update of the NIP-17 list for an `InboxRelays` event. -/
def step17 (now : Nat) : RelayList Nip17Coll → Event → RelayList Nip17Coll :=
  genStep (fun x => x.event_created_at) (mk17 now)

/-- Effect of one event on one key's entry: the
`entry(..).and_modify(..).or_insert_with(..)` of `update`, for the key
equal to the event's author.  Non-relevant kinds are ignored. -/
def stepO (now : Nat) (o : Option RelayLists) (e : Event) : Option RelayLists :=
  if e.kind = KindRelayList then
    some (match o with
      | some lists => { lists with nip65 := step65 now lists.nip65 e }
      | none => { emptyLists with nip65 := mk65 now e })
  else if e.kind = KindInboxRelays then
    some (match o with
      | some lists => { lists with nip17 := step17 now lists.nip17 e }
      | none => { emptyLists with nip17 := mk17 now e })
  else o

/-- Effect of one event on the whole map: only the author's entry moves. -/
def update_event (now : Nat) (st : GraphState) (e : Event) : GraphState :=
  fun k => if k = e.pubkey then stepO now (st k) e else st k

/-- `GossipGraph::update`: ingest a batch of events in iteration order. -/
def update (now : Nat) (st : GraphState) (events : List Event) : GraphState :=
  events.foldl (update_event now) st

/-- `GossipGraph::update_last_check`: set `last_check = now` on each key,
inserting a default record when none exists. -/
def update_last_check (now : Nat) (st : GraphState) (public_keys : List PublicKey) :
    GraphState :=
  public_keys.foldl
    (fun s k => fun j =>
      if j = k then
        some (match s k with
          | some lists => { lists with last_check := now }
          | none => { emptyLists with last_check := now })
      else s j)
    st

/-- The outdated condition tested by `check_outdated` for one key:
absent keys are outdated; present keys are skipped when recently checked,
else outdated when either collection is empty or either list is expired. -/
def outdatedP (st : GraphState) (now : Nat) (k : PublicKey) : Prop :=
  match st k with
  | none => True
  | some lists =>
      lists.last_check + CHECK_OUTDATED_INTERVAL ≤ now ∧
        (lists.nip17.collection = ∅ ∨ lists.nip65.collection = [] ∨
          lists.nip17.last_update + PUBKEY_METADATA_OUTDATED_AFTER < now ∨
          lists.nip65.last_update + PUBKEY_METADATA_OUTDATED_AFTER < now)

instance (st : GraphState) (now : Nat) (k : PublicKey) : Decidable (outdatedP st now k) := by
  unfold outdatedP
  match st k with
  | none => exact inferInstance
  | some lists => exact inferInstance

/-- One iteration of the `check_outdated` loop: skip a recently checked
key, insert an absent key, insert a present key whose collections are empty
or whose lists are expired. -/
def check_outdated_step (st : GraphState) (now : Nat) (outdated : Finset PublicKey)
    (k : PublicKey) : Finset PublicKey :=
  match st k with
  | some lists =>
      if now < lists.last_check + CHECK_OUTDATED_INTERVAL then outdated
      else
        if lists.nip17.collection = (∅ : Finset String) ∨
            lists.nip65.collection = [] ∨
            lists.nip17.last_update + PUBKEY_METADATA_OUTDATED_AFTER < now ∨
            lists.nip65.last_update + PUBKEY_METADATA_OUTDATED_AFTER < now then
          insert k outdated
        else outdated
  | none => insert k outdated

/-- `GossipGraph::check_outdated`: collect the outdated keys among the
queried ones at instant `now`. -/
def check_outdated (st : GraphState) (public_keys : List PublicKey) (now : Nat) :
    Finset PublicKey :=
  public_keys.foldl (check_outdated_step st now) ∅

/-- The `insert` condition of `get_nip65_relays`: an entry annotated `val`
is kept for the query metadata `metadata` when the annotations match or
when either side is unspecified. -/
def nip65keep (m : Option RelayMetadata) (metadata : Option RelayMetadata) : Bool :=
  match m with
  | some val =>
      match metadata with
      | some md => decide (val = md)
      | none => true
  | none => true

/-- URLs of one key's NIP-65 entries kept for the query metadata. -/
def urls65 (o : Option RelayLists) (metadata : Option RelayMetadata) : Finset String :=
  match o with
  | some lists =>
      ((lists.nip65.collection.filter (fun p => nip65keep p.2 metadata)).map Prod.fst).toFinset
  | none => ∅

/-- `GossipGraph::get_nip65_relays`: union over the queried keys of their
kept NIP-65 entries. -/
def get_nip65_relays (st : GraphState) (public_keys : Finset PublicKey)
    (metadata : Option RelayMetadata) : Finset String :=
  public_keys.biUnion fun k => urls65 (st k) metadata

/-- `GossipGraph::get_nip17_relays`: union over the queried keys of their
NIP-17 collections. -/
def get_nip17_relays (st : GraphState) (public_keys : Finset PublicKey) : Finset String :=
  public_keys.biUnion fun k =>
    match st k with
    | some lists => lists.nip17.collection
    | none => ∅

/-- Whether one key's record carries a NIP-65 entry for `r` kept under the
query metadata (the per-entry loop of `map_nip65_relays`). -/
def qual65 (o : Option RelayLists) (metadata : Option RelayMetadata) (r : String) : Bool :=
  match o with
  | some lists =>
      lists.nip65.collection.any (fun p => decide (p.1 = r) && nip65keep p.2 metadata)
  | none => false

/-- Whether one key's record carries a NIP-17 entry for `r`. -/
def qual17 (o : Option RelayLists) (r : String) : Bool :=
  match o with
  | some lists => decide (r ∈ lists.nip17.collection)
  | none => false

/-- The value at relay `r` of the `HashMap<RelayUrl, BTreeSet<PublicKey>>`
built by `map_nip65_relays`: the queried keys that contributed `r`. -/
def map65val (st : GraphState) (public_keys : Finset PublicKey) (metadata : RelayMetadata)
    (r : String) : Finset PublicKey :=
  public_keys.filter fun k => qual65 (st k) (some metadata) r = true

/-- The value at relay `r` of the map built by `map_nip17_relays`. -/
def map17val (st : GraphState) (public_keys : Finset PublicKey) (r : String) :
    Finset PublicKey :=
  public_keys.filter fun k => qual17 (st k) r = true

/-- Modelled from the spec: the `Filter` type lives in the external `nostr`
crate (not under `src/`).  Per the spec the decomposer only inspects the
`authors` set and the `p`-keyed generic-tag entry (a set of strings); every
other facet is opaque and preserved verbatim, collapsed here into `rest`. -/
structure Filter where
  authors : Option (Finset PublicKey)
  ptags : Option (Finset String)
  rest : Nat
deriving DecidableEq

/-- Parse the `p`-tag strings of a filter, silently dropping invalid hex:
`s.iter().filter_map(|p| PublicKey::from_hex(p).ok()).collect()`. -/
def parseP (S : Finset String) : Finset PublicKey :=
  S.biUnion fun s => (PublicKey.from_hex s).toFinset

/-- The parsed `p`-tag set of a filter:
`filter.generic_tags.get(&P_TAG).map(...)`. -/
def pTagOf (f : Filter) : Option (Finset PublicKey) :=
  f.ptags.map parseP

/-- The number of the `match (&filter.authors, &p_tag)` arm that handles a
filter: 1 = authors only, 2 = p-tags only, 3 = both, 4 = neither. -/
def caseOf (f : Filter) : Nat :=
  match f.authors, pTagOf f with
  | some _, none => 1
  | none, some _ => 2
  | some _, some _ => 3
  | none, none => 4

/-- Case 1 relay domain: the key set of `map_nip65_outbox_relays(authors)`
extended with `map_nip17_relays(authors)`. -/
def dom1 (st : GraphState) (A : Finset PublicKey) : Finset String :=
  get_nip65_relays st A (some RelayMetadata.write) ∪ get_nip17_relays st A

/-- Case 1 per-relay author set after `HashMap::extend`: the NIP-17 map's
value overwrites the NIP-65 outbox value on key collision. -/
def val1 (st : GraphState) (A : Finset PublicKey) (r : String) : Finset PublicKey :=
  if r ∈ get_nip17_relays st A then map17val st A r
  else map65val st A RelayMetadata.write r

/-- Case 2 relay domain: the key set of `map_nip65_inbox_relays(p)` extended
with `map_nip17_relays(p)`. -/
def dom2 (st : GraphState) (P : Finset PublicKey) : Finset String :=
  get_nip65_relays st P (some RelayMetadata.read) ∪ get_nip17_relays st P

/-- Case 2 per-relay key set after `HashMap::extend` (NIP-17 wins). -/
def val2 (st : GraphState) (P : Finset PublicKey) (r : String) : Finset PublicKey :=
  if r ∈ get_nip17_relays st P then map17val st P r
  else map65val st P RelayMetadata.read r

/-- Case 3 relay set:
`get_nip65_relays(authors ∪ p, None) ∪ get_nip17_relays(authors ∪ p)`. -/
def dom3 (st : GraphState) (A P : Finset PublicKey) : Finset String :=
  get_nip65_relays st (A ∪ P) none ∪ get_nip17_relays st (A ∪ P)

/-- Accumulator of the `break_down_filters` loop. -/
structure BDAcc where
  map : String → Finset Filter
  orphans : Finset Filter
  others : Finset Filter
  urls : Finset String

/-- `BrokenDownFilters` of `gossip/graph.rs`.  The `filters` map is
represented by its valuation: a relay is a key iff its set is non-empty. -/
structure BrokenDownFilters where
  filters : String → Finset Filter
  orphans : Option (Finset Filter)
  others : Option (Finset Filter)
  urls : Finset String

/-- One iteration of the `break_down_filters` loop on a single filter. -/
def bdStep (st : GraphState) (acc : BDAcc) (f : Filter) : BDAcc :=
  match f.authors, pTagOf f with
  | some A, none =>
      if dom1 st A = ∅ then { acc with orphans := insert f acc.orphans }
      else
        { acc with
          map := fun r =>
            if r ∈ dom1 st A then
              insert { f with authors := some (val1 st A r) } (acc.map r)
            else acc.map r,
          urls := acc.urls ∪ dom1 st A }
  | none, some P =>
      if dom2 st P = ∅ then { acc with orphans := insert f acc.orphans }
      else
        { acc with
          map := fun r =>
            if r ∈ dom2 st P then
              insert { f with ptags := some ((val2 st P r).image PublicKey.toHex) }
                (acc.map r)
            else acc.map r,
          urls := acc.urls ∪ dom2 st P }
  | some A, some P =>
      if dom3 st A P = ∅ then { acc with orphans := insert f acc.orphans }
      else
        { acc with
          map := fun r => if r ∈ dom3 st A P then insert f (acc.map r) else acc.map r,
          urls := acc.urls ∪ dom3 st A P }
  | none, none => { acc with others := insert f acc.others }

/-- The initial accumulator of `break_down_filters`. -/
def bdInit : BDAcc := ⟨fun _ => ∅, ∅, ∅, ∅⟩

/-- The accumulator after the whole input batch. -/
def bdAcc (st : GraphState) (fs : List Filter) : BDAcc :=
  fs.foldl (bdStep st) bdInit

/-- `GossipGraph::break_down_filters`: decompose a batch of filters over a
read snapshot of the graph, wrapping the orphan and other buckets in
`None` when empty. -/
def break_down_filters (st : GraphState) (fs : List Filter) : BrokenDownFilters :=
  let acc := bdAcc st fs
  { filters := acc.map,
    orphans := if acc.orphans = ∅ then none else some acc.orphans,
    others := if acc.others = ∅ then none else some acc.others,
    urls := acc.urls }

/-- The spec's words for the case-1 per-relay author set: "exactly the
subset of `A` whose outbox (or direct inbox) list contains that relay".
Stated from the spec for comparison with the source-derived `val1`. -/
def specCase1Authors (st : GraphState) (A : Finset PublicKey) (r : String) :
    Finset PublicKey :=
  A.filter fun a =>
    qual65 (st a) (some RelayMetadata.write) r = true ∨ qual17 (st a) r = true

/-- Modelled from the spec: `MIN_RETRY_INTERVAL` of the missing
`relay/constants.rs` — 5 seconds. -/
def MIN_RETRY_INTERVAL : Nat := 5

/-- Modelled from the spec: `DEFAULT_RETRY_INTERVAL` of the missing
`relay/constants.rs` — 10 seconds. -/
def DEFAULT_RETRY_INTERVAL : Nat := 10

/-- `RelayOptions` of `relay/options.rs`.  Fields whose types live in
external modules (`ConnectionMode`, `RelayServiceFlags`, `RelayLimits`,
`RelayFilteringMode`) are opaque to every claim and modelled as `Nat`;
durations are in seconds. -/
structure RelayOptions where
  connection_mode : Nat
  flags : Nat
  reconnect : Bool
  retry_interval : Nat
  adjust_retry_interval : Bool
  limits : Nat
  max_avg_latency : Option Nat
  filtering_mode : Nat
deriving DecidableEq

/-- `RelayOptions::default()`. -/
def RelayOptions.new : RelayOptions :=
  { connection_mode := 0, flags := 0, reconnect := true,
    retry_interval := DEFAULT_RETRY_INTERVAL, adjust_retry_interval := true,
    limits := 0, max_avg_latency := none, filtering_mode := 0 }

/-- `RelayOptions::retry_interval`: set the retry interval only when it is
at least `MIN_RETRY_INTERVAL`; otherwise keep the prior value. -/
def RelayOptions.retryInterval (o : RelayOptions) (interval : Nat) : RelayOptions :=
  if MIN_RETRY_INTERVAL ≤ interval then { o with retry_interval := interval } else o

/-- The externally visible operations on the gossip graph.  `ingest` and
`updateLastCheck` take the writer side of the lock (`&self` with a write
guard); the remaining operations take the reader side and return results
without touching the map. -/
inductive GossipOp where
  | ingest (now : Nat) (events : List Event)
  | updateLastCheck (now : Nat) (public_keys : List PublicKey)
  | checkOutdated (now : Nat) (public_keys : List PublicKey)
  | getNip65 (public_keys : Finset PublicKey) (metadata : Option RelayMetadata)
  | getNip17 (public_keys : Finset PublicKey)
  | breakDown (fs : List Filter)

/-- State transition of one graph operation: the two writer operations
update the map, every reader operation leaves it unchanged (in the source
they hold only a read guard). -/
def applyOp (st : GraphState) (op : GossipOp) : GraphState :=
  match op with
  | .ingest now events => update now st events
  | .updateLastCheck now public_keys => update_last_check now st public_keys
  | .checkOutdated _ _ => st
  | .getNip65 _ _ => st
  | .getNip17 _ => st
  | .breakDown _ => st

section GenStep

variable {σ : Type} (ts : σ → Nat) (mk : Event → σ)

lemma genStep_pos {s : σ} {e : Event} (h : ts s ≤ e.created_at) :
    genStep ts mk s e = mk e := by
  unfold genStep; rw [if_pos h]

lemma genStep_neg {s : σ} {e : Event} (h : ¬ts s ≤ e.created_at) :
    genStep ts mk s e = s := by
  unfold genStep; rw [if_neg h]

lemma genStep_ts_le (hmk : ∀ e, ts (mk e) = e.created_at) (s : σ) (e : Event) :
    ts s ≤ ts (genStep ts mk s e) := by
  by_cases h : ts s ≤ e.created_at
  · rw [genStep_pos ts mk h, hmk]; exact h
  · rw [genStep_neg ts mk h]

lemma genFold_ts_le (hmk : ∀ e, ts (mk e) = e.created_at) (l : List Event) (s : σ) :
    ts s ≤ ts (l.foldl (genStep ts mk) s) := by
  induction l generalizing s with
  | nil => exact le_rfl
  | cons e t ih =>
      exact le_trans (genStep_ts_le ts mk hmk s e) (ih (genStep ts mk s e))

lemma genFold_bound (hmk : ∀ e, ts (mk e) = e.created_at) (l : List Event) (s : σ) :
    ∀ e ∈ l, e.created_at ≤ ts (l.foldl (genStep ts mk) s) := by
  induction l generalizing s with
  | nil => intro e he; simp at he
  | cons a t ih =>
      intro e he
      rcases List.mem_cons.mp he with rfl | ht
      · refine le_trans ?_ (genFold_ts_le ts mk hmk t (genStep ts mk s e))
        by_cases h : ts s ≤ e.created_at
        · rw [genStep_pos ts mk h, hmk]
        · rw [genStep_neg ts mk h]; omega
      · exact ih (genStep ts mk s a) e ht

lemma genFold_ts_const (hmk : ∀ e, ts (mk e) = e.created_at) (l : List Event) (s : σ)
    (c : Nat) (hs : ts s = c) (hb : ∀ e ∈ l, e.created_at ≤ c) :
    ts (l.foldl (genStep ts mk) s) = c := by
  induction l generalizing s with
  | nil => exact hs
  | cons a t ih =>
      refine ih (genStep ts mk s a) ?_ (fun e he => hb e (List.mem_cons_of_mem a he))
      by_cases h : ts s ≤ a.created_at
      · rw [genStep_pos ts mk h, hmk]
        have h1 := hb a (List.mem_cons_self a t)
        omega
      · rw [genStep_neg ts mk h]; exact hs

lemma genFold_idem (hmk : ∀ e, ts (mk e) = e.created_at) (l : List Event) (s : σ) :
    l.foldl (genStep ts mk) (l.foldl (genStep ts mk) s) = l.foldl (genStep ts mk) s := by
  induction l using List.reverseRecOn generalizing s with
  | nil => rfl
  | append_singleton t e ih =>
      simp only [List.foldl_append, List.foldl_cons, List.foldl_nil]
      by_cases h : ts (t.foldl (genStep ts mk) s) ≤ e.created_at
      · rw [genStep_pos ts mk h]
        have hts : ts (t.foldl (genStep ts mk) (mk e)) = e.created_at := by
          refine genFold_ts_const ts mk hmk t (mk e) e.created_at (hmk e) ?_
          intro a ha
          exact le_trans (genFold_bound ts mk hmk t s a ha) h
        rw [genStep_pos ts mk (le_of_eq hts)]
      · rw [genStep_neg ts mk h, ih s, genStep_neg ts mk h]

end GenStep

/-- Whether an event has the `RelayList` kind. -/
def isRL (e : Event) : Bool := decide (e.kind = KindRelayList)

/-- Whether an event has the `InboxRelays` kind. -/
def isIB (e : Event) : Bool := decide (e.kind = KindInboxRelays)

/-- Whether an event has one of the two kinds `update` acts on. -/
def relevantEv (e : Event) : Bool := isRL e || isIB e

lemma isRL_true {e : Event} (h : e.kind = KindRelayList) : isRL e = true := by
  unfold isRL; exact decide_eq_true h

lemma isRL_false {e : Event} (h : ¬e.kind = KindRelayList) : isRL e = false := by
  unfold isRL; exact decide_eq_false h

lemma isIB_true {e : Event} (h : e.kind = KindInboxRelays) : isIB e = true := by
  unfold isIB; exact decide_eq_true h

lemma isIB_false {e : Event} (h : ¬e.kind = KindInboxRelays) : isIB e = false := by
  unfold isIB; exact decide_eq_false h

lemma notIB_of_RL {e : Event} (h : e.kind = KindRelayList) :
    ¬e.kind = KindInboxRelays := by
  rw [h]; unfold KindRelayList KindInboxRelays; omega

lemma stepO_irrel (now : Nat) (o : Option RelayLists) (e : Event)
    (h65 : ¬e.kind = KindRelayList) (h17 : ¬e.kind = KindInboxRelays) :
    stepO now o e = o := by
  unfold stepO; rw [if_neg h65, if_neg h17]

lemma stepO_rl (now : Nat) (L : RelayLists) (e : Event) (h65 : e.kind = KindRelayList) :
    stepO now (some L) e = some { L with nip65 := step65 now L.nip65 e } := by
  unfold stepO; rw [if_pos h65]

lemma stepO_ib (now : Nat) (L : RelayLists) (e : Event)
    (h65 : ¬e.kind = KindRelayList) (h17 : e.kind = KindInboxRelays) :
    stepO now (some L) e = some { L with nip17 := step17 now L.nip17 e } := by
  unfold stepO; rw [if_neg h65, if_pos h17]

lemma stepO_rl_none (now : Nat) (e : Event) (h65 : e.kind = KindRelayList) :
    stepO now none e = some { emptyLists with nip65 := mk65 now e } := by
  unfold stepO; rw [if_pos h65]

lemma stepO_ib_none (now : Nat) (e : Event)
    (h65 : ¬e.kind = KindRelayList) (h17 : e.kind = KindInboxRelays) :
    stepO now none e = some { emptyLists with nip17 := mk17 now e } := by
  unfold stepO; rw [if_neg h65, if_pos h17]

lemma update_apply (now : Nat) (st : GraphState) (es : List Event) (k : PublicKey) :
    update now st es k
      = es.foldl (fun o e => if k = e.pubkey then stepO now o e else o) (st k) := by
  induction es generalizing st with
  | nil => rfl
  | cons e t ih =>
      show update now (update_event now st e) t k = _
      rw [ih, List.foldl_cons]
      rfl

lemma foldl_guard (now : Nat) (k : PublicKey) (es : List Event) (o : Option RelayLists) :
    es.foldl (fun o e => if k = e.pubkey then stepO now o e else o) o
      = (es.filter (fun e => decide (e.pubkey = k))).foldl (stepO now) o := by
  induction es generalizing o with
  | nil => rfl
  | cons e t ih =>
      rw [List.foldl_cons, List.filter_cons]
      by_cases h : e.pubkey = k
      · rw [if_pos h.symm]
        simp only [h, decide_eq_true rfl, if_pos rfl, List.foldl_cons]
        exact ih (stepO now o e)
      · rw [if_neg (fun hh => h hh.symm)]
        simp only [decide_eq_false h, Bool.false_eq_true, if_false]
        exact ih o

lemma stepO_some (now : Nat) (l : List Event) (L : RelayLists) :
    l.foldl (stepO now) (some L)
      = some { nip17 := (l.filter isIB).foldl (step17 now) L.nip17,
               nip65 := (l.filter isRL).foldl (step65 now) L.nip65,
               last_check := L.last_check } := by
  induction l generalizing L with
  | nil => rfl
  | cons e t ih =>
      rw [List.foldl_cons]
      by_cases h65 : e.kind = KindRelayList
      · have h17 := notIB_of_RL h65
        rw [stepO_rl now L e h65, ih]
        simp [List.filter_cons, isRL_true h65, isIB_false h17]
      · by_cases h17 : e.kind = KindInboxRelays
        · rw [stepO_ib now L e h65 h17, ih]
          simp [List.filter_cons, isRL_false h65, isIB_true h17]
        · rw [stepO_irrel now (some L) e h65 h17, ih]
          simp [List.filter_cons, isRL_false h65, isIB_false h17]

lemma stepO_fold_none_iff (now : Nat) (l : List Event) (o : Option RelayLists) :
    l.foldl (stepO now) o = none ↔ o = none ∧ l.filter relevantEv = [] := by
  induction l generalizing o with
  | nil => simp
  | cons e t ih =>
      rw [List.foldl_cons, ih, List.filter_cons]
      by_cases h65 : e.kind = KindRelayList
      · have hre : relevantEv e = true := by
          unfold relevantEv; rw [isRL_true h65]; rfl
        have hsome : ∃ x, stepO now o e = some x := by
          unfold stepO; rw [if_pos h65]; exact ⟨_, rfl⟩
        obtain ⟨x, hx⟩ := hsome
        simp [hx, hre]
      · by_cases h17 : e.kind = KindInboxRelays
        · have hre : relevantEv e = true := by
            unfold relevantEv; rw [isIB_true h17]; simp
          have hsome : ∃ x, stepO now o e = some x := by
            unfold stepO; rw [if_neg h65, if_pos h17]; exact ⟨_, rfl⟩
          obtain ⟨x, hx⟩ := hsome
          simp [hx, hre]
        · have hre : relevantEv e = false := by
            unfold relevantEv; rw [isRL_false h65, isIB_false h17]; rfl
          rw [stepO_irrel now o e h65 h17]
          simp [hre]

lemma stepO_fold_from_none (now : Nat) (l : List Event)
    (h : ¬l.filter relevantEv = []) :
    l.foldl (stepO now) none
      = some { nip17 := (l.filter isIB).foldl (step17 now) ⟨∅, 0, 0⟩,
               nip65 := (l.filter isRL).foldl (step65 now) ⟨[], 0, 0⟩,
               last_check := 0 } := by
  induction l with
  | nil => simp at h
  | cons e t ih =>
      rw [List.foldl_cons]
      by_cases h65 : e.kind = KindRelayList
      · have h17 := notIB_of_RL h65
        rw [stepO_rl_none now e h65, stepO_some]
        have h0 : step65 now ⟨[], 0, 0⟩ e = mk65 now e := by
          unfold step65
          exact genStep_pos _ _ (Nat.zero_le _)
        simp [List.filter_cons, isRL_true h65, isIB_false h17, h0, emptyLists]
      · by_cases h17 : e.kind = KindInboxRelays
        · rw [stepO_ib_none now e h65 h17, stepO_some]
          have h0 : step17 now ⟨∅, 0, 0⟩ e = mk17 now e := by
            unfold step17
            exact genStep_pos _ _ (Nat.zero_le _)
          simp [List.filter_cons, isRL_false h65, isIB_true h17, h0, emptyLists]
        · rw [stepO_irrel now none e h65 h17]
          have hre : relevantEv e = false := by
            unfold relevantEv; rw [isRL_false h65, isIB_false h17]; rfl
          have ht : ¬t.filter relevantEv = [] := by
            intro hc
            refine h ?_
            rw [List.filter_cons, hre]
            simpa using hc
          rw [ih ht]
          simp [List.filter_cons, isRL_false h65, isIB_false h17]

lemma step65_idem (now : Nat) (l : List Event) (x : RelayList Nip65Coll) :
    l.foldl (step65 now) (l.foldl (step65 now) x) = l.foldl (step65 now) x :=
  genFold_idem (fun y : RelayList Nip65Coll => y.event_created_at) (mk65 now)
    (fun _ => rfl) l x

lemma step17_idem (now : Nat) (l : List Event) (x : RelayList Nip17Coll) :
    l.foldl (step17 now) (l.foldl (step17 now) x) = l.foldl (step17 now) x :=
  genFold_idem (fun y : RelayList Nip17Coll => y.event_created_at) (mk17 now)
    (fun _ => rfl) l x

/-- C2: For every batch of events `E` and every graph state, ingesting `E`
and then ingesting `E` again (at the same instant) leaves the graph in the
same state as ingesting `E` once. -/
theorem ingest_idempotent (now : Nat) (st : GraphState) (es : List Event) :
    update now (update now st es) es = update now st es := by
  funext k
  rw [update_apply, update_apply, foldl_guard, foldl_guard]
  generalize (es.filter (fun e => decide (e.pubkey = k))) = l
  generalize st k = o
  cases o with
  | some L =>
      rw [stepO_some, stepO_some]
      refine congrArg some ?_
      show RelayLists.mk
          ((l.filter isIB).foldl (step17 now) ((l.filter isIB).foldl (step17 now) L.nip17))
          ((l.filter isRL).foldl (step65 now) ((l.filter isRL).foldl (step65 now) L.nip65))
          L.last_check = _
      rw [step17_idem, step65_idem]
  | none =>
      by_cases hrel : l.filter relevantEv = []
      · rw [(stepO_fold_none_iff now l none).mpr ⟨rfl, hrel⟩]
        exact (stepO_fold_none_iff now l none).mpr ⟨rfl, hrel⟩
      · rw [stepO_fold_from_none now l hrel, stepO_some]
        refine congrArg some ?_
        show RelayLists.mk
            ((l.filter isIB).foldl (step17 now) ((l.filter isIB).foldl (step17 now) ⟨∅, 0, 0⟩))
            ((l.filter isRL).foldl (step65 now) ((l.filter isRL).foldl (step65 now) ⟨[], 0, 0⟩))
            0 = _
        rw [step17_idem, step65_idem]

lemma notRL_of_IB {e : Event} (h : e.kind = KindInboxRelays) :
    ¬e.kind = KindRelayList := by
  rw [h]; unfold KindRelayList KindInboxRelays; omega

lemma update_single (now : Nat) (st : GraphState) (e : Event) :
    update now st [e] e.pubkey = stepO now (st e.pubkey) e := by
  show update_event now st e e.pubkey = _
  unfold update_event
  rw [if_pos rfl]

/-- C5: for a key holding a record `L`, an incoming record of either list
kind replaces that kind's stored list iff its `created_at` is at least the
stored `event_created_at` (installing the truncated collection with
`last_update = now`), a strictly older record leaves the list unchanged,
and in every case the other kind's list, the `last_check` stamp, and the
monotonicity of `event_created_at` are preserved. -/
theorem versioning_monotone (now : Nat) (st : GraphState) (e : Event) (L : RelayLists)
    (hL : st e.pubkey = some L) :
    (e.kind = KindRelayList →
        (L.nip65.event_created_at ≤ e.created_at →
          update now st [e] e.pubkey = some { L with nip65 := mk65 now e })
      ∧ (e.created_at < L.nip65.event_created_at →
          update now st [e] e.pubkey = some L)
      ∧ ∀ L', update now st [e] e.pubkey = some L' →
          L'.nip17 = L.nip17 ∧ L'.last_check = L.last_check ∧
            L.nip65.event_created_at ≤ L'.nip65.event_created_at)
  ∧ (e.kind = KindInboxRelays →
        (L.nip17.event_created_at ≤ e.created_at →
          update now st [e] e.pubkey = some { L with nip17 := mk17 now e })
      ∧ (e.created_at < L.nip17.event_created_at →
          update now st [e] e.pubkey = some L)
      ∧ ∀ L', update now st [e] e.pubkey = some L' →
          L'.nip65 = L.nip65 ∧ L'.last_check = L.last_check ∧
            L.nip17.event_created_at ≤ L'.nip17.event_created_at) := by
  have hbase : update now st [e] e.pubkey = stepO now (some L) e := by
    rw [update_single, hL]
  constructor
  · intro h65
    have hupd : update now st [e] e.pubkey
        = some { L with nip65 := step65 now L.nip65 e } := by
      rw [hbase, stepO_rl now L e h65]
    refine ⟨?_, ?_, ?_⟩
    · intro hle
      have hs : step65 now L.nip65 e = mk65 now e := genStep_pos _ _ hle
      rw [hupd, hs]
    · intro hlt
      have hs : step65 now L.nip65 e = L.nip65 := genStep_neg _ _ (by omega)
      rw [hupd, hs]
    · intro L' hL'
      rw [hupd] at hL'
      have hinj := Option.some.inj hL'
      refine ⟨by rw [← hinj], by rw [← hinj], ?_⟩
      rw [← hinj]
      exact genStep_ts_le (fun y : RelayList Nip65Coll => y.event_created_at)
        (mk65 now) (fun _ => rfl) L.nip65 e
  · intro h17
    have h65 := notRL_of_IB h17
    have hupd : update now st [e] e.pubkey
        = some { L with nip17 := step17 now L.nip17 e } := by
      rw [hbase, stepO_ib now L e h65 h17]
    refine ⟨?_, ?_, ?_⟩
    · intro hle
      have hs : step17 now L.nip17 e = mk17 now e := genStep_pos _ _ hle
      rw [hupd, hs]
    · intro hlt
      have hs : step17 now L.nip17 e = L.nip17 := genStep_neg _ _ (by omega)
      rw [hupd, hs]
    · intro L' hL'
      rw [hupd] at hL'
      have hinj := Option.some.inj hL'
      refine ⟨by rw [← hinj], by rw [← hinj], ?_⟩
      rw [← hinj]
      exact genStep_ts_le (fun y : RelayList Nip17Coll => y.event_created_at)
        (mk17 now) (fun _ => rfl) L.nip17 e

/-- A concrete record used by the witnesses. -/
def LW : RelayLists :=
  { nip17 := ⟨{("x")}, 3, 2⟩, nip65 := ⟨[(("a"), none)], 10, 2⟩, last_check := 1 }

/-- A concrete one-key graph used by the witnesses. -/
def stW : GraphState := fun k => if k = 1 then some LW else none

/-- A concrete `RelayList`-kind event used by the witnesses. -/
def eW : Event := ⟨1, 12, 10002, [(("b"), some RelayMetadata.read)], []⟩

theorem versioning_monotone_witness :
    stW eW.pubkey = some LW ∧ LW.nip65.event_created_at ≤ eW.created_at ∧
      update 7 stW [eW] eW.pubkey = some { LW with nip65 := mk65 7 eW } :=
  ⟨rfl, by decide, ((versioning_monotone 7 stW eW LW rfl).1 rfl).1 (by decide)⟩

lemma mem_check_outdated_step (st : GraphState) (now : Nat) (acc : Finset PublicKey)
    (k a : PublicKey) :
    a ∈ check_outdated_step st now acc k ↔ a ∈ acc ∨ (a = k ∧ outdatedP st now k) := by
  cases hst : st k with
  | none =>
      have hs : check_outdated_step st now acc k = insert k acc := by
        unfold check_outdated_step; rw [hst]
      have ho : outdatedP st now k := by
        unfold outdatedP; rw [hst]; trivial
      rw [hs]
      simp only [Finset.mem_insert, ho, and_true]
      tauto
  | some lists =>
      have hs : check_outdated_step st now acc k
          = if now < lists.last_check + CHECK_OUTDATED_INTERVAL then acc
            else
              if lists.nip17.collection = (∅ : Finset String) ∨
                  lists.nip65.collection = [] ∨
                  lists.nip17.last_update + PUBKEY_METADATA_OUTDATED_AFTER < now ∨
                  lists.nip65.last_update + PUBKEY_METADATA_OUTDATED_AFTER < now then
                insert k acc
              else acc := by
        unfold check_outdated_step; rw [hst]
      have ho : outdatedP st now k ↔
          lists.last_check + CHECK_OUTDATED_INTERVAL ≤ now ∧
            (lists.nip17.collection = (∅ : Finset String) ∨
              lists.nip65.collection = [] ∨
              lists.nip17.last_update + PUBKEY_METADATA_OUTDATED_AFTER < now ∨
              lists.nip65.last_update + PUBKEY_METADATA_OUTDATED_AFTER < now) := by
        unfold outdatedP; rw [hst]
      rw [hs, ho]
      by_cases h1 : now < lists.last_check + CHECK_OUTDATED_INTERVAL
      · rw [if_pos h1]
        have h2 : ¬(lists.last_check + CHECK_OUTDATED_INTERVAL ≤ now) := by omega
        tauto
      · rw [if_neg h1]
        have h1a : lists.last_check + CHECK_OUTDATED_INTERVAL ≤ now := by omega
        by_cases h2 : lists.nip17.collection = (∅ : Finset String) ∨
            lists.nip65.collection = [] ∨
            lists.nip17.last_update + PUBKEY_METADATA_OUTDATED_AFTER < now ∨
            lists.nip65.last_update + PUBKEY_METADATA_OUTDATED_AFTER < now
        · rw [if_pos h2]
          simp only [Finset.mem_insert]
          tauto
        · rw [if_neg h2]
          tauto

lemma check_outdated_go (st : GraphState) (now : Nat) (keys : List PublicKey)
    (acc : Finset PublicKey) (k : PublicKey) :
    k ∈ keys.foldl (check_outdated_step st now) acc
      ↔ k ∈ acc ∨ (k ∈ keys ∧ outdatedP st now k) := by
  induction keys generalizing acc with
  | nil => simp
  | cons a t ih =>
      rw [List.foldl_cons, ih, mem_check_outdated_step]
      simp only [List.mem_cons]
      constructor
      · rintro ((h | ⟨rfl, h⟩) | ⟨ht, h⟩)
        · exact Or.inl h
        · exact Or.inr ⟨Or.inl rfl, h⟩
        · exact Or.inr ⟨Or.inr ht, h⟩
      · rintro (h | ⟨(rfl | ht), h⟩)
        · exact Or.inl (Or.inl h)
        · exact Or.inl (Or.inr ⟨rfl, h⟩)
        · exact Or.inr ⟨ht, h⟩

/-- C7: `check_outdated` returns exactly the queried keys that are absent
from the graph, or whose record passed the `last_check` gate
(`last_check + CHECK_OUTDATED_INTERVAL ≤ now`) and has an empty collection
or an expired `last_update` in either list; recently checked keys are never
returned. -/
theorem check_outdated_spec (st : GraphState) (keys : List PublicKey) (now : Nat)
    (k : PublicKey) :
    (k ∈ check_outdated st keys now ↔ k ∈ keys ∧ outdatedP st now k)
  ∧ ∀ lists, st k = some lists →
      now < lists.last_check + CHECK_OUTDATED_INTERVAL →
      k ∉ check_outdated st keys now := by
  have hmain : k ∈ check_outdated st keys now ↔ k ∈ keys ∧ outdatedP st now k := by
    unfold check_outdated
    rw [check_outdated_go]
    simp
  refine ⟨hmain, ?_⟩
  intro lists hlists hrecent hmem
  have h2 := (hmain.mp hmem).2
  unfold outdatedP at h2
  rw [hlists] at h2
  omega

/-- A concrete instant at which `stW`'s key 1 counts as recently checked. -/
def now0 : Nat := 100

theorem check_outdated_spec_witness :
    stW 1 = some LW ∧ now0 < LW.last_check + CHECK_OUTDATED_INTERVAL ∧
      1 ∉ check_outdated stW [1, 2] now0 :=
  ⟨rfl, by decide, (check_outdated_spec stW [1, 2] now0 1).2 LW rfl (by decide)⟩

/-- The cap invariant of C8: every stored list of every key has at most
`MAX_RELAYS_LIST` entries. -/
def capOK (st : GraphState) : Prop :=
  ∀ k L, st k = some L →
    L.nip65.collection.length ≤ MAX_RELAYS_LIST ∧
      L.nip17.collection.card ≤ MAX_RELAYS_LIST

lemma insertKV_length (m : Nip65Coll) (kv : String × Option RelayMetadata) :
    (insertKV m kv).length ≤ m.length + 1 := by
  unfold insertKV
  split
  · rw [List.length_map]; omega
  · rw [List.length_append]; simp

lemma foldl_insertKV_length (l : List (String × Option RelayMetadata)) (m : Nip65Coll) :
    (l.foldl insertKV m).length ≤ m.length + l.length := by
  induction l generalizing m with
  | nil => simp
  | cons kv t ih =>
      rw [List.foldl_cons]
      have h1 := ih (insertKV m kv)
      have h2 := insertKV_length m kv
      simp only [List.length_cons]
      omega

lemma coll65_le (e : Event) : (coll65 e).length ≤ MAX_RELAYS_LIST := by
  unfold coll65 collectMap
  have h1 := foldl_insertKV_length (e.relays65.take MAX_RELAYS_LIST) []
  have h2 : (e.relays65.take MAX_RELAYS_LIST).length ≤ MAX_RELAYS_LIST := by
    rw [List.length_take]; omega
  simp only [List.length_nil] at h1
  omega

lemma coll17_le (e : Event) : (coll17 e).card ≤ MAX_RELAYS_LIST := by
  unfold coll17
  have h1 := (e.relays17.take MAX_RELAYS_LIST).toFinset_card_le
  have h2 : (e.relays17.take MAX_RELAYS_LIST).length ≤ MAX_RELAYS_LIST := by
    rw [List.length_take]; omega
  omega

lemma step65_cap (now : Nat) (x : RelayList Nip65Coll) (e : Event)
    (hx : x.collection.length ≤ MAX_RELAYS_LIST) :
    (step65 now x e).collection.length ≤ MAX_RELAYS_LIST := by
  by_cases h : x.event_created_at ≤ e.created_at
  · rw [show step65 now x e = mk65 now e from genStep_pos _ _ h]
    exact coll65_le e
  · rw [show step65 now x e = x from genStep_neg _ _ h]
    exact hx

lemma step17_cap (now : Nat) (x : RelayList Nip17Coll) (e : Event)
    (hx : x.collection.card ≤ MAX_RELAYS_LIST) :
    (step17 now x e).collection.card ≤ MAX_RELAYS_LIST := by
  by_cases h : x.event_created_at ≤ e.created_at
  · rw [show step17 now x e = mk17 now e from genStep_pos _ _ h]
    exact coll17_le e
  · rw [show step17 now x e = x from genStep_neg _ _ h]
    exact hx

lemma capOK_stepO (now : Nat) (st : GraphState) (e : Event) (h : capOK st) :
    capOK (update_event now st e) := by
  intro k L hkL
  unfold update_event at hkL
  by_cases hk : k = e.pubkey
  · rw [if_pos hk] at hkL
    by_cases h65 : e.kind = KindRelayList
    · cases hst : st k with
      | some L0 =>
          rw [hst, stepO_rl now L0 e h65] at hkL
          have hinj := Option.some.inj hkL
          have h0 := h k L0 hst
          rw [← hinj]
          exact ⟨step65_cap now L0.nip65 e h0.1, h0.2⟩
      | none =>
          rw [hst, stepO_rl_none now e h65] at hkL
          have hinj := Option.some.inj hkL
          rw [← hinj]
          refine ⟨coll65_le e, ?_⟩
          simp [emptyLists]
    · by_cases h17 : e.kind = KindInboxRelays
      · cases hst : st k with
        | some L0 =>
            rw [hst, stepO_ib now L0 e h65 h17] at hkL
            have hinj := Option.some.inj hkL
            have h0 := h k L0 hst
            rw [← hinj]
            exact ⟨h0.1, step17_cap now L0.nip17 e h0.2⟩
        | none =>
            rw [hst, stepO_ib_none now e h65 h17] at hkL
            have hinj := Option.some.inj hkL
            rw [← hinj]
            refine ⟨?_, coll17_le e⟩
            simp [emptyLists]
      · rw [stepO_irrel now (st k) e h65 h17] at hkL
        exact h k L hkL
  · rw [if_neg hk] at hkL
    exact h k L hkL

/-- C8: the empty graph satisfies the cap invariant, and ingestion
preserves it: after any sequence of ingests every stored relay list (both
kinds) has at most `MAX_RELAYS_LIST` entries — the installed collections
are built from the first `MAX_RELAYS_LIST` entries of each record. -/
theorem cap_invariant :
    capOK emptyGraph ∧
      ∀ now st es, capOK st → capOK (update now st es) := by
  constructor
  · intro k L hkL
    cases hkL
  · intro now st es
    induction es generalizing st with
    | nil => exact fun h => h
    | cons e t ih =>
        intro h
        exact ih (update_event now st e) (capOK_stepO now st e h)

theorem cap_invariant_witness : capOK (update 3 emptyGraph [eW]) :=
  cap_invariant.2 3 emptyGraph [eW] cap_invariant.1

/-- C9: `retry_interval` with a duration below the 5-second minimum keeps
the prior value (silently, never an error), with a duration at or above the
minimum installs it, and in both situations every other field of the
options is unchanged. -/
theorem retry_interval_spec (o : RelayOptions) (d : Nat) :
    (d < MIN_RETRY_INTERVAL →
        (o.retryInterval d).retry_interval = o.retry_interval)
  ∧ (MIN_RETRY_INTERVAL ≤ d → (o.retryInterval d).retry_interval = d)
  ∧ (o.retryInterval d).connection_mode = o.connection_mode
  ∧ (o.retryInterval d).flags = o.flags
  ∧ (o.retryInterval d).reconnect = o.reconnect
  ∧ (o.retryInterval d).adjust_retry_interval = o.adjust_retry_interval
  ∧ (o.retryInterval d).limits = o.limits
  ∧ (o.retryInterval d).max_avg_latency = o.max_avg_latency
  ∧ (o.retryInterval d).filtering_mode = o.filtering_mode := by
  by_cases h : MIN_RETRY_INTERVAL ≤ d
  · have e1 : o.retryInterval d = { o with retry_interval := d } := by
      unfold RelayOptions.retryInterval; rw [if_pos h]
    rw [e1]
    exact ⟨fun hd => absurd (lt_of_lt_of_le hd h) (lt_irrefl d),
      fun _ => rfl, rfl, rfl, rfl, rfl, rfl, rfl, rfl⟩
  · have e1 : o.retryInterval d = o := by
      unfold RelayOptions.retryInterval; rw [if_neg h]
    rw [e1]
    exact ⟨fun _ => rfl, fun hle => absurd hle h, rfl, rfl, rfl, rfl, rfl, rfl, rfl⟩

theorem retry_interval_spec_witness :
    (3 < MIN_RETRY_INTERVAL ∧
        (RelayOptions.new.retryInterval 3).retry_interval
          = RelayOptions.new.retry_interval)
      ∧ (MIN_RETRY_INTERVAL ≤ 7 ∧
        (RelayOptions.new.retryInterval 7).retry_interval = 7) :=
  ⟨⟨by decide, (retry_interval_spec RelayOptions.new 3).1 (by decide)⟩,
   ⟨by decide, (retry_interval_spec RelayOptions.new 7).2.1 (by decide)⟩⟩

lemma stepO_pres_isSome (now : Nat) (o : Option RelayLists) (e : Event)
    (h : o.isSome = true) : (stepO now o e).isSome = true := by
  by_cases h65 : e.kind = KindRelayList
  · unfold stepO; rw [if_pos h65]; rfl
  · by_cases h17 : e.kind = KindInboxRelays
    · unfold stepO; rw [if_neg h65, if_pos h17]; rfl
    · rw [stepO_irrel now o e h65 h17]; exact h

lemma foldl_guard_isSome (now : Nat) (k : PublicKey) (es : List Event)
    (o : Option RelayLists) (h : o.isSome = true) :
    (es.foldl (fun o e => if k = e.pubkey then stepO now o e else o) o).isSome
      = true := by
  induction es generalizing o with
  | nil => exact h
  | cons e t ih =>
      rw [List.foldl_cons]
      refine ih _ ?_
      by_cases hk : k = e.pubkey
      · rw [if_pos hk]; exact stepO_pres_isSome now o e h
      · rw [if_neg hk]; exact h

lemma update_pres_isSome (now : Nat) (st : GraphState) (es : List Event)
    (k : PublicKey) (h : (st k).isSome = true) :
    (update now st es k).isSome = true := by
  rw [update_apply]
  exact foldl_guard_isSome now k es (st k) h

lemma ulc_pres_isSome (now : Nat) (st : GraphState) (ks : List PublicKey)
    (k : PublicKey) (h : (st k).isSome = true) :
    (update_last_check now st ks k).isSome = true := by
  unfold update_last_check
  induction ks generalizing st with
  | nil => exact h
  | cons a t ih =>
      rw [List.foldl_cons]
      refine ih _ ?_
      by_cases hk : k = a
      · rw [if_pos hk]; rfl
      · rw [if_neg hk]; exact h

/-- C10: no operation removes a public-key record: the reader operations
leave the graph state unchanged, and along any sequence of operations every
key that holds a record keeps holding one. -/
theorem key_persistence :
    (∀ st now ks, applyOp st (GossipOp.checkOutdated now ks) = st)
  ∧ (∀ st ks md, applyOp st (GossipOp.getNip65 ks md) = st)
  ∧ (∀ st ks, applyOp st (GossipOp.getNip17 ks) = st)
  ∧ (∀ st fs, applyOp st (GossipOp.breakDown fs) = st)
  ∧ ∀ (ops : List GossipOp) (st : GraphState) (k : PublicKey),
      (st k).isSome = true → ((ops.foldl applyOp st) k).isSome = true := by
  refine ⟨fun _ _ _ => rfl, fun _ _ _ => rfl, fun _ _ => rfl, fun _ _ => rfl, ?_⟩
  intro ops
  induction ops with
  | nil => exact fun st k h => h
  | cons op t ih =>
      intro st k h
      rw [List.foldl_cons]
      refine ih (applyOp st op) k ?_
      cases op with
      | ingest now events => exact update_pres_isSome now st events k h
      | updateLastCheck now pks => exact ulc_pres_isSome now st pks k h
      | checkOutdated now pks => exact h
      | getNip65 pks md => exact h
      | getNip17 pks => exact h
      | breakDown fs => exact h

theorem key_persistence_witness :
    (stW 1).isSome = true ∧
      (([GossipOp.ingest 2 [eW], GossipOp.updateLastCheck 4 [9],
          GossipOp.breakDown []].foldl applyOp stW) 1).isSome = true :=
  ⟨rfl, key_persistence.2.2.2.2
    [GossipOp.ingest 2 [eW], GossipOp.updateLastCheck 4 [9], GossipOp.breakDown []]
    stW 1 rfl⟩

lemma mem_get17 (st : GraphState) (keys : Finset PublicKey) (r : String) :
    r ∈ get_nip17_relays st keys ↔ ∃ k ∈ keys, qual17 (st k) r = true := by
  unfold get_nip17_relays
  simp only [Finset.mem_biUnion]
  refine exists_congr fun k => and_congr_right fun _ => ?_
  unfold qual17
  cases hst : st k with
  | some L => simp
  | none => simp

lemma nip65keep_none (m : Option RelayMetadata) : nip65keep m none = true := by
  cases m <;> rfl

lemma mem_get65 (st : GraphState) (keys : Finset PublicKey)
    (md : Option RelayMetadata) (r : String) :
    r ∈ get_nip65_relays st keys md ↔ ∃ k ∈ keys, qual65 (st k) md r = true := by
  unfold get_nip65_relays
  simp only [Finset.mem_biUnion]
  refine exists_congr fun k => and_congr_right fun _ => ?_
  unfold urls65 qual65
  cases hst : st k with
  | some L =>
      simp only [List.mem_toFinset, List.mem_map, List.mem_filter, List.any_eq_true,
        Bool.and_eq_true, decide_eq_true_eq]
      constructor
      · rintro ⟨p, ⟨hp, hq⟩, hr⟩
        exact ⟨p, hp, hr, hq⟩
      · rintro ⟨p, hp, hr, hq⟩
        exact ⟨p, ⟨hp, hq⟩, hr⟩
  | none => simp

lemma mem_map65val (st : GraphState) (keys : Finset PublicKey) (md : RelayMetadata)
    (r : String) (a : PublicKey) :
    a ∈ map65val st keys md r ↔ a ∈ keys ∧ qual65 (st a) (some md) r = true := by
  unfold map65val
  exact Finset.mem_filter

lemma mem_map17val (st : GraphState) (keys : Finset PublicKey) (r : String)
    (a : PublicKey) :
    a ∈ map17val st keys r ↔ a ∈ keys ∧ qual17 (st a) r = true := by
  unfold map17val
  exact Finset.mem_filter

lemma mem_dom_union (st : GraphState) (keys : Finset PublicKey)
    (md : Option RelayMetadata) (r : String) :
    r ∈ get_nip65_relays st keys md ∪ get_nip17_relays st keys
      ↔ ∃ a ∈ keys, qual65 (st a) md r = true ∨ qual17 (st a) r = true := by
  rw [Finset.mem_union, mem_get65, mem_get17]
  constructor
  · rintro (⟨a, ha, hq⟩ | ⟨a, ha, hq⟩)
    · exact ⟨a, ha, Or.inl hq⟩
    · exact ⟨a, ha, Or.inr hq⟩
  · rintro ⟨a, ha, hq | hq⟩
    · exact Or.inl ⟨a, ha, hq⟩
    · exact Or.inr ⟨a, ha, hq⟩

lemma bdAcc_single (st : GraphState) (f : Filter) :
    bdAcc st [f] = bdStep st bdInit f := rfl

lemma bdStep_case1 (st : GraphState) (acc : BDAcc) (f : Filter) (A : Finset PublicKey)
    (hA : f.authors = some A) (hP : pTagOf f = none) :
    bdStep st acc f
      = if dom1 st A = ∅ then { acc with orphans := insert f acc.orphans }
        else
          { acc with
            map := fun r =>
              if r ∈ dom1 st A then
                insert { f with authors := some (val1 st A r) } (acc.map r)
              else acc.map r,
            urls := acc.urls ∪ dom1 st A } := by
  unfold bdStep
  rw [hA, hP]

lemma bdStep_case2 (st : GraphState) (acc : BDAcc) (f : Filter) (P : Finset PublicKey)
    (hA : f.authors = none) (hP : pTagOf f = some P) :
    bdStep st acc f
      = if dom2 st P = ∅ then { acc with orphans := insert f acc.orphans }
        else
          { acc with
            map := fun r =>
              if r ∈ dom2 st P then
                insert { f with ptags := some ((val2 st P r).image PublicKey.toHex) }
                  (acc.map r)
              else acc.map r,
            urls := acc.urls ∪ dom2 st P } := by
  unfold bdStep
  rw [hA, hP]

lemma bdStep_case3 (st : GraphState) (acc : BDAcc) (f : Filter) (A P : Finset PublicKey)
    (hA : f.authors = some A) (hP : pTagOf f = some P) :
    bdStep st acc f
      = if dom3 st A P = ∅ then { acc with orphans := insert f acc.orphans }
        else
          { acc with
            map := fun r => if r ∈ dom3 st A P then insert f (acc.map r) else acc.map r,
            urls := acc.urls ∪ dom3 st A P } := by
  unfold bdStep
  rw [hA, hP]

lemma bdStep_case4 (st : GraphState) (acc : BDAcc) (f : Filter)
    (hA : f.authors = none) (hP : pTagOf f = none) :
    bdStep st acc f = { acc with others := insert f acc.others } := by
  unfold bdStep
  rw [hA, hP]

lemma mem_val1 (st : GraphState) (A : Finset PublicKey) (r : String) (a : PublicKey) :
    a ∈ val1 st A r ↔ a ∈ A ∧
      (if r ∈ get_nip17_relays st A then qual17 (st a) r = true
       else qual65 (st a) (some RelayMetadata.write) r = true) := by
  unfold val1
  by_cases hr : r ∈ get_nip17_relays st A
  · rw [if_pos hr, if_pos hr, mem_map17val]
  · rw [if_neg hr, if_neg hr, mem_map65val]

lemma mem_val2 (st : GraphState) (P : Finset PublicKey) (r : String) (a : PublicKey) :
    a ∈ val2 st P r ↔ a ∈ P ∧
      (if r ∈ get_nip17_relays st P then qual17 (st a) r = true
       else qual65 (st a) (some RelayMetadata.read) r = true) := by
  unfold val2
  by_cases hr : r ∈ get_nip17_relays st P
  · rw [if_pos hr, if_pos hr, mem_map17val]
  · rw [if_neg hr, if_neg hr, mem_map65val]

lemma break_down_single_case1 (st : GraphState) (f : Filter) (A : Finset PublicKey)
    (hA : f.authors = some A) (hP : pTagOf f = none) :
    (∀ r, (break_down_filters st [f]).filters r
        = if r ∈ dom1 st A then
            ({ { f with authors := some (val1 st A r) } } : Finset Filter)
          else ∅)
  ∧ ((break_down_filters st [f]).orphans = if dom1 st A = ∅ then some {f} else none) := by
  have hstep := bdStep_case1 st bdInit f A hA hP
  by_cases hd : dom1 st A = ∅
  · rw [if_pos hd] at hstep
    have hmap : ∀ r, (bdAcc st [f]).map r = (∅ : Finset Filter) := by
      intro r; rw [bdAcc_single, hstep]; rfl
    have ho : (bdAcc st [f]).orphans = insert f (∅ : Finset Filter) := by
      rw [bdAcc_single, hstep]; rfl
    constructor
    · intro r
      have hr : r ∉ dom1 st A := by rw [hd]; exact Finset.not_mem_empty r
      rw [if_neg hr]
      exact hmap r
    · show (if (bdAcc st [f]).orphans = ∅ then none else some (bdAcc st [f]).orphans) = _
      rw [ho, if_pos hd]
      simp
  · rw [if_neg hd] at hstep
    have hmap : ∀ r, (bdAcc st [f]).map r
        = if r ∈ dom1 st A then
            insert { f with authors := some (val1 st A r) } (∅ : Finset Filter)
          else ∅ := by
      intro r; rw [bdAcc_single, hstep]; rfl
    have ho : (bdAcc st [f]).orphans = (∅ : Finset Filter) := by
      rw [bdAcc_single, hstep]; rfl
    constructor
    · intro r
      have hfe : (break_down_filters st [f]).filters r = (bdAcc st [f]).map r := rfl
      rw [hfe, hmap r]
      by_cases hr : r ∈ dom1 st A
      · rw [if_pos hr, if_pos hr]
        simp
      · rw [if_neg hr, if_neg hr]
    · show (if (bdAcc st [f]).orphans = ∅ then none else some (bdAcc st [f]).orphans) = _
      rw [ho, if_neg hd]
      simp
lemma break_down_single_case2 (st : GraphState) (f : Filter) (P : Finset PublicKey)
    (hA : f.authors = none) (hP : pTagOf f = some P) :
    (∀ r, (break_down_filters st [f]).filters r
        = if r ∈ dom2 st P then
            ({ { f with ptags := some ((val2 st P r).image PublicKey.toHex) } }
              : Finset Filter)
          else ∅)
  ∧ ((break_down_filters st [f]).orphans = if dom2 st P = ∅ then some {f} else none) := by
  have hstep := bdStep_case2 st bdInit f P hA hP
  by_cases hd : dom2 st P = ∅
  · rw [if_pos hd] at hstep
    have hmap : ∀ r, (bdAcc st [f]).map r = (∅ : Finset Filter) := by
      intro r; rw [bdAcc_single, hstep]; rfl
    have ho : (bdAcc st [f]).orphans = insert f (∅ : Finset Filter) := by
      rw [bdAcc_single, hstep]; rfl
    constructor
    · intro r
      have hr : r ∉ dom2 st P := by rw [hd]; exact Finset.not_mem_empty r
      rw [if_neg hr]
      exact hmap r
    · show (if (bdAcc st [f]).orphans = ∅ then none else some (bdAcc st [f]).orphans) = _
      rw [ho, if_pos hd]
      simp
  · rw [if_neg hd] at hstep
    have hmap : ∀ r, (bdAcc st [f]).map r
        = if r ∈ dom2 st P then
            insert { f with ptags := some ((val2 st P r).image PublicKey.toHex) }
              (∅ : Finset Filter)
          else ∅ := by
      intro r; rw [bdAcc_single, hstep]; rfl
    have ho : (bdAcc st [f]).orphans = (∅ : Finset Filter) := by
      rw [bdAcc_single, hstep]; rfl
    constructor
    · intro r
      have hfe : (break_down_filters st [f]).filters r = (bdAcc st [f]).map r := rfl
      rw [hfe, hmap r]
      by_cases hr : r ∈ dom2 st P
      · rw [if_pos hr, if_pos hr]
        simp
      · rw [if_neg hr, if_neg hr]
    · show (if (bdAcc st [f]).orphans = ∅ then none else some (bdAcc st [f]).orphans) = _
      rw [ho, if_neg hd]
      simp
/-- C1 (amended): in cases 1 and 2 the two per-relay maps are merged with
`HashMap::extend` semantics — on a relay contributed by both maps the
NIP-17 key set replaces the NIP-65 one (`val1`/`val2`), not their union.
The emitted filter at each relay of the merged domain carries that key set
(case 1: as `authors`; case 2: as hex-encoded `p`-tags), the domain is the
union of the two key sets, and the filter is orphaned iff the domain is
empty. -/
theorem break_down_cases12 (st : GraphState) (f : Filter) :
    (∀ A, f.authors = some A → pTagOf f = none →
      (∀ r, (break_down_filters st [f]).filters r
          = if r ∈ dom1 st A then
              ({ { f with authors := some (val1 st A r) } } : Finset Filter)
            else ∅)
      ∧ (∀ r a, a ∈ val1 st A r ↔ a ∈ A ∧
          (if r ∈ get_nip17_relays st A then qual17 (st a) r = true
           else qual65 (st a) (some RelayMetadata.write) r = true))
      ∧ (∀ r, r ∈ dom1 st A ↔ ∃ a ∈ A,
          qual65 (st a) (some RelayMetadata.write) r = true ∨ qual17 (st a) r = true)
      ∧ ((break_down_filters st [f]).orphans
          = if dom1 st A = ∅ then some {f} else none))
  ∧ (∀ P, f.authors = none → pTagOf f = some P →
      (∀ r, (break_down_filters st [f]).filters r
          = if r ∈ dom2 st P then
              ({ { f with ptags := some ((val2 st P r).image PublicKey.toHex) } }
                : Finset Filter)
            else ∅)
      ∧ (∀ r a, a ∈ val2 st P r ↔ a ∈ P ∧
          (if r ∈ get_nip17_relays st P then qual17 (st a) r = true
           else qual65 (st a) (some RelayMetadata.read) r = true))
      ∧ (∀ r, r ∈ dom2 st P ↔ ∃ a ∈ P,
          qual65 (st a) (some RelayMetadata.read) r = true ∨ qual17 (st a) r = true)
      ∧ ((break_down_filters st [f]).orphans
          = if dom2 st P = ∅ then some {f} else none)) := by
  constructor
  · intro A hA hP
    obtain ⟨h1, h2⟩ := break_down_single_case1 st f A hA hP
    exact ⟨h1, fun r a => mem_val1 st A r a,
      fun r => mem_dom_union st A (some RelayMetadata.write) r, h2⟩
  · intro P hA hP
    obtain ⟨h1, h2⟩ := break_down_single_case2 st f P hA hP
    exact ⟨h1, fun r a => mem_val2 st P r a,
      fun r => mem_dom_union st P (some RelayMetadata.read) r, h2⟩

/-- A record whose NIP-65 list carries relay `r` with a Write annotation. -/
def L1C : RelayLists :=
  { nip17 := ⟨∅, 0, 0⟩, nip65 := ⟨[(("r"), some RelayMetadata.write)], 0, 0⟩,
    last_check := 0 }

/-- A record whose NIP-17 list carries relay `r`. -/
def L2C : RelayLists :=
  { nip17 := ⟨{("r")}, 0, 0⟩, nip65 := ⟨[], 0, 0⟩, last_check := 0 }

/-- A two-key graph where key 1 reaches `r` only via NIP-65 outbox and key
2 only via NIP-17. -/
def stC : GraphState := fun k => if k = 1 then some L1C else if k = 2 then some L2C else none

/-- A case-1 filter over both keys of `stC`. -/
def fC : Filter := ⟨some {1, 2}, none, 0⟩

/-- C1 counterexample: on `stC`, the spec's case-1 author set at relay `r`
is `{1, 2}` (both keys' lists contain `r`), but the emitted filter carries
authors `{2}` — `HashMap::extend` replaced the NIP-65 outbox entry by the
NIP-17 one instead of unioning the key sets. -/
theorem break_down_union_counterexample :
    specCase1Authors stC {1, 2} ("r") = {1, 2}
  ∧ (break_down_filters stC [fC]).filters ("r")
      = ({ ⟨some {2}, none, 0⟩ } : Finset Filter)
  ∧ (break_down_filters stC [fC]).filters ("r")
      ≠ ({ ⟨some (specCase1Authors stC {1, 2} ("r")), none, 0⟩ } : Finset Filter) := by
  refine ⟨by decide, by decide, by decide⟩

/-- A filter whose `p`-tag entry is present but contains only invalid hex. -/
def fZ : Filter := ⟨none, some {("zz")}, 0⟩

/-- C3 counterexample: the filter `fZ` has an all-invalid `p`-tag list; its
parsed `p`-tag set is `Some ∅`, yet it is handled by the case-2 branch
(`caseOf fZ = 2`), not the case-3 branch the claim names. -/
theorem invalid_ptags_case_counterexample :
    pTagOf fZ = some ∅ ∧ caseOf fZ ≠ 3 ∧ caseOf fZ = 2 :=
  ⟨by decide, by decide, by decide⟩

/-- C3 (amended): when every string of a present `p`-tag list fails to
parse, the parsed `p`-tag set is `Some ∅`; a filter with no authors is then
handled by the case-2 branch, its derived relay union is empty and it is
orphaned; a filter with authors is handled by the case-3 branch, whose
relay set degenerates to the relays of the authors alone. -/
theorem invalid_ptags_all_dropped (st : GraphState) (f : Filter) (S : Finset String)
    (hS : f.ptags = some S) (hinv : ∀ s ∈ S, PublicKey.from_hex s = none) :
    pTagOf f = some ∅
  ∧ (f.authors = none →
      caseOf f = 2 ∧ dom2 st ∅ = ∅ ∧
        (break_down_filters st [f]).orphans = some {f} ∧
        ∀ r, (break_down_filters st [f]).filters r = ∅)
  ∧ (∀ A, f.authors = some A →
      caseOf f = 3 ∧
        dom3 st A ∅ = get_nip65_relays st A none ∪ get_nip17_relays st A) := by
  have hparse : parseP S = ∅ := by
    unfold parseP
    refine Finset.eq_empty_iff_forall_not_mem.mpr ?_
    intro x hx
    rw [Finset.mem_biUnion] at hx
    obtain ⟨s, hs, hxs⟩ := hx
    rw [hinv s hs] at hxs
    simp at hxs
  have hpt : pTagOf f = some ∅ := by
    unfold pTagOf
    rw [hS]
    show some (parseP S) = some ∅
    rw [hparse]
  refine ⟨hpt, ?_, ?_⟩
  · intro hA
    have hcase : caseOf f = 2 := by
      unfold caseOf
      rw [hA, hpt]
    have hdom : dom2 st (∅ : Finset PublicKey) = ∅ := by
      unfold dom2 get_nip65_relays get_nip17_relays
      simp
    obtain ⟨h1, h2⟩ := break_down_single_case2 st f ∅ hA hpt
    refine ⟨hcase, hdom, ?_, ?_⟩
    · rw [h2, if_pos hdom]
    · intro r
      rw [h1 r, if_neg (by rw [hdom]; exact Finset.not_mem_empty r)]
  · intro A hA
    have hcase : caseOf f = 3 := by
      unfold caseOf
      rw [hA, hpt]
    refine ⟨hcase, ?_⟩
    unfold dom3
    rw [Finset.union_empty]

theorem invalid_ptags_all_dropped_witness :
    fZ.ptags = some {("zz")} ∧ pTagOf fZ = some ∅ ∧ caseOf fZ = 2 ∧
      (break_down_filters stC [fZ]).orphans = some {fZ} := by
  have h := invalid_ptags_all_dropped stC fZ {("zz")} rfl (by decide)
  exact ⟨rfl, h.1, (h.2.1 rfl).1, (h.2.1 rfl).2.2.1⟩

lemma qual65_none_iff (o : Option RelayLists) (r : String) :
    qual65 o none r = true ↔ ∃ L, o = some L ∧ ∃ m, (r, m) ∈ L.nip65.collection := by
  unfold qual65
  cases o with
  | none => simp
  | some L =>
      simp only [List.any_eq_true, Bool.and_eq_true, decide_eq_true_eq, nip65keep_none,
        and_true, Option.some.injEq]
      constructor
      · rintro ⟨p, hp, hr⟩
        refine ⟨L, rfl, p.2, ?_⟩
        have hpe : (r, p.2) = p := by rw [← hr]
        rwa [hpe]
      · rintro ⟨L2, rfl, m, hm⟩
        exact ⟨(r, m), hm, rfl⟩

lemma break_down_single_case3 (st : GraphState) (f : Filter) (A P : Finset PublicKey)
    (hA : f.authors = some A) (hP : pTagOf f = some P) :
    (∀ r, (break_down_filters st [f]).filters r
        = if r ∈ dom3 st A P then ({f} : Finset Filter) else ∅)
  ∧ ((break_down_filters st [f]).orphans
      = if dom3 st A P = ∅ then some {f} else none) := by
  have hstep := bdStep_case3 st bdInit f A P hA hP
  by_cases hd : dom3 st A P = ∅
  · rw [if_pos hd] at hstep
    have hmap : ∀ r, (bdAcc st [f]).map r = (∅ : Finset Filter) := by
      intro r; rw [bdAcc_single, hstep]; rfl
    have ho : (bdAcc st [f]).orphans = insert f (∅ : Finset Filter) := by
      rw [bdAcc_single, hstep]; rfl
    constructor
    · intro r
      rw [if_neg (by rw [hd]; exact Finset.not_mem_empty r)]
      exact hmap r
    · show (if (bdAcc st [f]).orphans = ∅ then none else some (bdAcc st [f]).orphans) = _
      rw [ho, if_pos hd]
      simp
  · rw [if_neg hd] at hstep
    have hmap : ∀ r, (bdAcc st [f]).map r
        = if r ∈ dom3 st A P then insert f (∅ : Finset Filter) else ∅ := by
      intro r; rw [bdAcc_single, hstep]; rfl
    have ho : (bdAcc st [f]).orphans = (∅ : Finset Filter) := by
      rw [bdAcc_single, hstep]; rfl
    constructor
    · intro r
      have hfe : (break_down_filters st [f]).filters r = (bdAcc st [f]).map r := rfl
      rw [hfe, hmap r]
      by_cases hr : r ∈ dom3 st A P
      · rw [if_pos hr, if_pos hr]
        simp
      · rw [if_neg hr, if_neg hr]
    · show (if (bdAcc st [f]).orphans = ∅ then none else some (bdAcc st [f]).orphans) = _
      rw [ho, if_neg hd]
      simp

/-- C4: in case 3 the relay set is the NIP-65 relays of `A ∪ P` queried
with `metadata = None` — keeping every stored entry whatever its annotation
— united with the NIP-17 relays of `A ∪ P`; the original unmodified filter
is inserted at every relay of this set, and the filter is orphaned iff the
set is empty. -/
theorem break_down_case3_spec (st : GraphState) (f : Filter) (A P : Finset PublicKey)
    (hA : f.authors = some A) (hP : pTagOf f = some P) (hne : A.Nonempty) :
    (∀ r, (break_down_filters st [f]).filters r
        = if r ∈ dom3 st A P then ({f} : Finset Filter) else ∅)
  ∧ (∀ r, r ∈ dom3 st A P ↔ ∃ k ∈ A ∪ P,
      qual65 (st k) none r = true ∨ qual17 (st k) r = true)
  ∧ (∀ k r, qual65 (st k) none r = true ↔
      ∃ L, st k = some L ∧ ∃ m, (r, m) ∈ L.nip65.collection)
  ∧ ((break_down_filters st [f]).orphans
      = if dom3 st A P = ∅ then some {f} else none) := by
  obtain ⟨h1, h2⟩ := break_down_single_case3 st f A P hA hP
  exact ⟨h1, fun r => mem_dom_union st (A ∪ P) none r,
    fun k r => qual65_none_iff (st k) r, h2⟩

/-- A case-3 filter over the graph `stC`: author 1 and tagged key 2. -/
def fC3 : Filter := ⟨some {1}, some {(PublicKey.toHex 2)}, 0⟩

set_option maxRecDepth 100000 in
theorem break_down_case3_spec_witness :
    fC3.authors = some {1} ∧ pTagOf fC3 = some {2} ∧ ({1} : Finset PublicKey).Nonempty ∧
      (break_down_filters stC [fC3]).filters ("r") = {fC3} := by
  have h := break_down_case3_spec stC fC3 {1} {2} rfl (by decide) ⟨1, by decide⟩
  refine ⟨rfl, by decide, ⟨1, by decide⟩, ?_⟩
  have hr : ("r") ∈ dom3 stC {1} {2} := by decide
  rw [h.1 ("r"), if_pos hr]

/-- The orphaning condition of one filter: it falls in case 1, 2 or 3 and
its derived relay set is empty. -/
def orphanCond (st : GraphState) (f : Filter) : Prop :=
  match f.authors, pTagOf f with
  | some A, none => dom1 st A = ∅
  | none, some P => dom2 st P = ∅
  | some A, some P => dom3 st A P = ∅
  | none, none => False

/-- The relay set a filter's case derives (empty for case 4). -/
def bdDom (st : GraphState) (f : Filter) : Finset String :=
  match f.authors, pTagOf f with
  | some A, none => dom1 st A
  | none, some P => dom2 st P
  | some A, some P => dom3 st A P
  | none, none => ∅

lemma bdStep_orphans_mem (st : GraphState) (acc : BDAcc) (f g : Filter) :
    g ∈ (bdStep st acc f).orphans ↔ g ∈ acc.orphans ∨ (g = f ∧ orphanCond st f) := by
  cases hA : f.authors with
  | some A =>
      cases hP : pTagOf f with
      | none =>
          have hoc : orphanCond st f ↔ dom1 st A = ∅ := by
            unfold orphanCond; rw [hA, hP]
          rw [bdStep_case1 st acc f A hA hP, hoc]
          by_cases hd : dom1 st A = ∅
          · rw [if_pos hd]
            simp only [Finset.mem_insert, hd, and_true]
            tauto
          · rw [if_neg hd]
            simp [hd]
      | some P =>
          have hoc : orphanCond st f ↔ dom3 st A P = ∅ := by
            unfold orphanCond; rw [hA, hP]
          rw [bdStep_case3 st acc f A P hA hP, hoc]
          by_cases hd : dom3 st A P = ∅
          · rw [if_pos hd]
            simp only [Finset.mem_insert, hd, and_true]
            tauto
          · rw [if_neg hd]
            simp [hd]
  | none =>
      cases hP : pTagOf f with
      | none =>
          have hoc : orphanCond st f ↔ False := by
            unfold orphanCond; rw [hA, hP]
          rw [bdStep_case4 st acc f hA hP, hoc]
          simp
      | some P =>
          have hoc : orphanCond st f ↔ dom2 st P = ∅ := by
            unfold orphanCond; rw [hA, hP]
          rw [bdStep_case2 st acc f P hA hP, hoc]
          by_cases hd : dom2 st P = ∅
          · rw [if_pos hd]
            simp only [Finset.mem_insert, hd, and_true]
            tauto
          · rw [if_neg hd]
            simp [hd]

lemma bdStep_others_mem (st : GraphState) (acc : BDAcc) (f g : Filter) :
    g ∈ (bdStep st acc f).others ↔ g ∈ acc.others ∨ (g = f ∧ caseOf f = 4) := by
  cases hA : f.authors with
  | some A =>
      cases hP : pTagOf f with
      | none =>
          have hc : caseOf f = 1 := by unfold caseOf; rw [hA, hP]
          rw [bdStep_case1 st acc f A hA hP]
          by_cases hd : dom1 st A = ∅
          · rw [if_pos hd]; simp [hc]
          · rw [if_neg hd]; simp [hc]
      | some P =>
          have hc : caseOf f = 3 := by unfold caseOf; rw [hA, hP]
          rw [bdStep_case3 st acc f A P hA hP]
          by_cases hd : dom3 st A P = ∅
          · rw [if_pos hd]; simp [hc]
          · rw [if_neg hd]; simp [hc]
  | none =>
      cases hP : pTagOf f with
      | none =>
          have hc : caseOf f = 4 := by unfold caseOf; rw [hA, hP]
          rw [bdStep_case4 st acc f hA hP]
          simp only [Finset.mem_insert, hc, and_true]
          tauto
      | some P =>
          have hc : caseOf f = 2 := by unfold caseOf; rw [hA, hP]
          rw [bdStep_case2 st acc f P hA hP]
          by_cases hd : dom2 st P = ∅
          · rw [if_pos hd]; simp [hc]
          · rw [if_neg hd]; simp [hc]

lemma bdFold_orphans_mem (st : GraphState) (fs : List Filter) (g : Filter)
    (acc : BDAcc) :
    g ∈ (fs.foldl (bdStep st) acc).orphans
      ↔ g ∈ acc.orphans ∨ (g ∈ fs ∧ orphanCond st g) := by
  induction fs generalizing acc with
  | nil => simp
  | cons f t ih =>
      rw [List.foldl_cons, ih, bdStep_orphans_mem]
      simp only [List.mem_cons]
      constructor
      · rintro ((h | ⟨rfl, h⟩) | ⟨ht, h⟩)
        · exact Or.inl h
        · exact Or.inr ⟨Or.inl rfl, h⟩
        · exact Or.inr ⟨Or.inr ht, h⟩
      · rintro (h | ⟨(rfl | ht), h⟩)
        · exact Or.inl (Or.inl h)
        · exact Or.inl (Or.inr ⟨rfl, h⟩)
        · exact Or.inr ⟨ht, h⟩

lemma bdFold_others_mem (st : GraphState) (fs : List Filter) (g : Filter)
    (acc : BDAcc) :
    g ∈ (fs.foldl (bdStep st) acc).others
      ↔ g ∈ acc.others ∨ (g ∈ fs ∧ caseOf g = 4) := by
  induction fs generalizing acc with
  | nil => simp
  | cons f t ih =>
      rw [List.foldl_cons, ih, bdStep_others_mem]
      simp only [List.mem_cons]
      constructor
      · rintro ((h | ⟨rfl, h⟩) | ⟨ht, h⟩)
        · exact Or.inl h
        · exact Or.inr ⟨Or.inl rfl, h⟩
        · exact Or.inr ⟨Or.inr ht, h⟩
      · rintro (h | ⟨(rfl | ht), h⟩)
        · exact Or.inl (Or.inl h)
        · exact Or.inl (Or.inr ⟨rfl, h⟩)
        · exact Or.inr ⟨ht, h⟩

lemma orphanCond_iff (st : GraphState) (g : Filter) :
    orphanCond st g
      ↔ (caseOf g = 1 ∨ caseOf g = 2 ∨ caseOf g = 3) ∧ bdDom st g = ∅ := by
  cases hA : g.authors with
  | some A =>
      cases hP : pTagOf g with
      | none =>
          have h1 : orphanCond st g ↔ dom1 st A = ∅ := by
            unfold orphanCond; rw [hA, hP]
          have h2 : caseOf g = 1 := by unfold caseOf; rw [hA, hP]
          have h3 : bdDom st g = dom1 st A := by unfold bdDom; rw [hA, hP]
          rw [h1, h2, h3]
          simp
      | some P =>
          have h1 : orphanCond st g ↔ dom3 st A P = ∅ := by
            unfold orphanCond; rw [hA, hP]
          have h2 : caseOf g = 3 := by unfold caseOf; rw [hA, hP]
          have h3 : bdDom st g = dom3 st A P := by unfold bdDom; rw [hA, hP]
          rw [h1, h2, h3]
          simp
  | none =>
      cases hP : pTagOf g with
      | none =>
          have h1 : orphanCond st g ↔ False := by
            unfold orphanCond; rw [hA, hP]
          have h2 : caseOf g = 4 := by unfold caseOf; rw [hA, hP]
          rw [h1, h2]
          simp
      | some P =>
          have h1 : orphanCond st g ↔ dom2 st P = ∅ := by
            unfold orphanCond; rw [hA, hP]
          have h2 : caseOf g = 2 := by unfold caseOf; rw [hA, hP]
          have h3 : bdDom st g = dom2 st P := by unfold bdDom; rw [hA, hP]
          rw [h1, h2, h3]
          simp

/-- C6: over any input batch, a filter is in the orphan bucket iff it
occurs in the batch, falls in case 1, 2 or 3 and its derived relay set is
empty; it is in the others bucket iff it occurs in the batch with neither
authors nor a `p`-tag (case 4); never both; and each bucket is returned as
`None` exactly when empty, the operation being total by construction. -/
theorem orphan_disjointness (st : GraphState) (fs : List Filter) (g : Filter) :
    (g ∈ (bdAcc st fs).orphans ↔
      g ∈ fs ∧ (caseOf g = 1 ∨ caseOf g = 2 ∨ caseOf g = 3) ∧ bdDom st g = ∅)
  ∧ (g ∈ (bdAcc st fs).others ↔ g ∈ fs ∧ caseOf g = 4)
  ∧ ¬(g ∈ (bdAcc st fs).orphans ∧ g ∈ (bdAcc st fs).others)
  ∧ ((break_down_filters st fs).orphans
      = if (bdAcc st fs).orphans = ∅ then none else some ((bdAcc st fs).orphans))
  ∧ ((break_down_filters st fs).others
      = if (bdAcc st fs).others = ∅ then none else some ((bdAcc st fs).others)) := by
  have ho : g ∈ (bdAcc st fs).orphans ↔ g ∈ fs ∧ orphanCond st g := by
    unfold bdAcc
    rw [bdFold_orphans_mem]
    simp [bdInit]
  have ht : g ∈ (bdAcc st fs).others ↔ g ∈ fs ∧ caseOf g = 4 := by
    unfold bdAcc
    rw [bdFold_others_mem]
    simp [bdInit]
  refine ⟨?_, ht, ?_, rfl, rfl⟩
  · rw [ho, orphanCond_iff]
  · rintro ⟨h1, h2⟩
    have hc1 := (ho.mp h1).2
    have hc2 := (ht.mp h2).2
    rw [orphanCond_iff] at hc1
    rcases hc1.1 with h | h | h <;> omega

theorem orphan_disjointness_witness :
    fZ ∈ (bdAcc stC [fZ]).orphans ∧
      ¬(fZ ∈ (bdAcc stC [fZ]).orphans ∧ fZ ∈ (bdAcc stC [fZ]).others) :=
  ⟨(orphan_disjointness stC [fZ] fZ).1.mpr (by decide),
   (orphan_disjointness stC [fZ] fZ).2.2.1⟩

/-- A case-2 filter over the graph `stC`, tagging key 2. -/
def fP2 : Filter := ⟨none, some {(PublicKey.toHex 2)}, 0⟩

set_option maxRecDepth 100000 in
theorem break_down_cases12_witness :
    ((break_down_filters stC [fC]).filters ("r")
        = ({ { fC with authors := some (val1 stC {1, 2} ("r")) } } : Finset Filter))
  ∧ ((break_down_filters stC [fP2]).filters ("r")
        = ({ { fP2 with ptags := some ((val2 stC {2} ("r")).image PublicKey.toHex) } }
            : Finset Filter)) := by
  have h1 := ((break_down_cases12 stC fC).1 {1, 2} rfl rfl).1 ("r")
  have h2 := ((break_down_cases12 stC fP2).2 {2} rfl (by decide)).1 ("r")
  rw [if_pos (by decide)] at h1
  rw [if_pos (by decide)] at h2
  exact ⟨h1, h2⟩

end Nostr
